import Mathlib

/-!
Verification of the water-bucket puzzle solver (`solver.py`).

We embed the `State` class, its neighbor generation (`get_neighbors`),
the goal test (`is_goal`), the generic breadth-first search
(`breadth_first_search`) with its explored map and path reconstruction
(`unravel_bfs`), and the `argmax` / `puzzle_difficulty` utilities,
and prove the specified properties about them.

Python integers are modelled as `Int`; a bucket configuration
(`State.values`) is a `List Int`.  The Python `while` loops are
modelled with explicit fuel; for the BFS loop the fuel
`stateSpaceBound + 1` (one more than the size of the space of valid
configurations) is proved sufficient, and for the path-reconstruction
loop the fuel `explored.length + 1` is proved sufficient.  The search
returns the Python list that mixes the empty-tuple sentinel `()` with
states; we model an element of that list as `Option Values`, with
`none` standing for the sentinel `()` and `some v` for a state with
values `v` (states produced by one search all share `constraints`,
`target` and `allow_refills`, so the values determine the state).
-/

/-- A bucket configuration: the tuple of fill amounts (Python ints). -/
abbrev Values := List Int

/-- Mirror of the Python `State` class. -/
structure State where
  values : Values
  constraints : List Int
  target : Int
  allow_refills : Bool := true
deriving DecidableEq

/-- Model of `State._replace(values, index, new_val)`:
`values[:index] + (new_val,) + values[index+1:]`. -/
def replaceAt (values : Values) (index : Nat) (newVal : Int) : Values :=
  values.take index ++ [newVal] ++ values.drop (index + 1)

/-- The values of the configurations produced by `State.get_neighbors`,
in generation order: for each bucket `i`, the empty move (if
`values[i] != 0`) and the fill move (if `values[i] != constraints[i]`
and `allow_refills`); then for each ordered pair `i ≠ j` with
`values[i] != 0` and `space_left = constraints[j] - values[j] >= 0`,
the pour of `min(values[i], space_left)` from `i` into `j`.
The Python code accumulates these in a set; only membership matters
downstream (within one BFS expansion, duplicates are filtered by the
explored-map check), so a list is a faithful model.
The pour result named by `pourResult` below: `moving` is
`min(values[i], space_left)` with
`space_left = constraints[j] - values[j]`; `values[j] += moving` is
applied first, then `values[i] -= moving`, as in the source. -/
def pourResult (c : List Int) (v : Values) (i j : Nat) : Values :=
  replaceAt (replaceAt v j (v.getD j 0 + min (v.getD i 0) (c.getD j 0 - v.getD j 0)))
    i (v.getD i 0 - min (v.getD i 0) (c.getD j 0 - v.getD j 0))

def neighborValues (c : List Int) (ar : Bool) (v : Values) : List Values :=
  ((List.range v.length).flatMap (fun i =>
      (if v.getD i 0 ≠ 0 then [replaceAt v i 0] else []) ++
      (if v.getD i 0 ≠ c.getD i 0 ∧ ar = true then [replaceAt v i (c.getD i 0)] else [])))
  ++ ((List.range v.length).flatMap (fun i =>
      if v.getD i 0 ≠ 0 then
        (List.range v.length).filterMap (fun j =>
          if i ≠ j then
            (if 0 ≤ c.getD j 0 - v.getD j 0 then some (pourResult c v i j) else none)
          else none)
      else []))

/-- Model of `State.get_neighbors`: the neighbor states share the source's
`constraints`, `target` and `allow_refills`. -/
def State.get_neighbors (s : State) : List State :=
  (neighborValues s.constraints s.allow_refills s.values).map
    (fun n => { values := n, constraints := s.constraints,
                target := s.target, allow_refills := s.allow_refills })

/-- The `is_goal` test on bare values: some bucket holds exactly the target. -/
def isGoalV (t : Int) (v : Values) : Bool :=
  v.any (fun val => decide (val = t))

/-- Model of `State.is_goal`. -/
def State.is_goal (s : State) : Bool := isGoalV s.target s.values

/-- The `explored` dictionary: insertion-ordered association list from a
state's values to its predecessor's values (`none` is the `()` sentinel
recorded for the initial state). -/
abbrev Explored := List (Values × Option Values)

/-- Dictionary lookup in `explored` (Python `explored[v]` / `v in explored`). -/
def lookupExp (v : Values) (e : Explored) : Option (Option Values) :=
  (e.find? (fun p => decide (p.1 = v))).map Prod.snd

/-- The loop of `unravel_bfs`: starting from the goal state, keep
prepending predecessors while the current list head is a state present
in `explored`; the `()` sentinel (modelled `none`) is prepended last and
stops the loop.  The accumulator holds the path already in reversed
(initial-to-goal) order, so no final reversal is needed. -/
def unravelLoop (e : Explored) : Nat → Option Values → List (Option Values) → List (Option Values)
  | 0, cur, acc => cur :: acc
  | fuel + 1, cur, acc =>
    match cur with
    | none => none :: acc
    | some v =>
      match lookupExp v e with
      | none => some v :: acc
      | some pred => unravelLoop e fuel pred (some v :: acc)

/-- Model of `unravel_bfs(state, explored)`.  The fuel `explored.length + 1` is
sufficient because every predecessor entry points to a strictly earlier
entry of the (insertion-ordered) map. -/
def unravel_bfs (v : Values) (e : Explored) : List (Option Values) :=
  unravelLoop e (e.length + 1) (some v) []

/-- The body of the BFS `for i in state.get_neighbors()` loop: each
neighbor not yet in `explored` is recorded with predecessor `pred` and
appended at the end of the queue. -/
def expand (pred : Values) : List Values → Explored → List Values → Explored × List Values
  | [], e, q => (e, q)
  | n :: ns, e, q =>
    if (lookupExp n e).isSome then expand pred ns e q
    else expand pred ns (e ++ [(n, some pred)]) (q ++ [n])

/-- The `while queue:` loop of `breadth_first_search`, with fuel.
Returns `none` on fuel exhaustion (proved not to happen for valid
initial states at the fuel used by `breadth_first_search`). -/
def bfsLoop (c : List Int) (t : Int) (ar : Bool) :
    Nat → List Values → Explored → Option (List (Option Values))
  | 0, _, _ => none
  | fuel + 1, queue, e =>
    match queue with
    | [] => some []
    | v :: rest =>
      if isGoalV t v then some (unravel_bfs v e)
      else
        let p := expand v (neighborValues c ar v) e rest
        bfsLoop c t ar fuel p.2 p.1

/-- The number of valid configurations: the product of
`capacity + 1` over all buckets. -/
def stateSpaceBound (c : List Int) : Nat :=
  (c.map (fun b => b.toNat + 1)).prod

/-- Model of `breadth_first_search(initial_state)`.  The result list mixes the
`()` sentinel (`none`) with states given by their values (`some v`).
Fuel `stateSpaceBound + 1` is proved sufficient for every valid
initial state. -/
def breadth_first_search (s : State) : List (Option Values) :=
  (bfsLoop s.constraints s.target s.allow_refills
      (stateSpaceBound s.constraints + 1) [s.values] [(s.values, none)]).getD []

/-- Model of `puzzle_difficulty(state)`, which is `len(breadth_first_search(state))`. -/
def puzzle_difficulty (s : State) : Nat := (breadth_first_search s).length

/-- The `for i in domain:` loop of `argmax`, carrying the current best
argument and best function value; the update uses strict `>`, so the
first-seen maximum is kept on ties. -/
def argmaxLoop {α β : Type _} [LinearOrder β] (f : α → β) : List α → α → β → α
  | [], arg, _ => arg
  | i :: rest, arg, m =>
    if f i > m then argmaxLoop f rest i (f i) else argmaxLoop f rest arg m

/-- Model of `argmax(domain, function)`: raises
`IndexError('domain is empty:', domain)` on an empty domain, modelled
as an `Except.error` carrying the message and the (empty) domain. -/
def argmax {α β : Type _} [LinearOrder β] (domain : List α) (f : α → β) :
    Except (String × List α) α :=
  match domain with
  | [] => Except.error ("domain is empty:", [])
  | d :: _ => Except.ok (argmaxLoop f domain d (f d))

/-- The capacity invariant `0 <= values[i] <= constraints[i]` (with
matching lengths). -/
def Valid (c : List Int) (v : Values) : Prop :=
  v.length = c.length ∧ ∀ i, i < v.length → 0 ≤ v.getD i 0 ∧ v.getD i 0 ≤ c.getD i 0

instance (c : List Int) (v : Values) : Decidable (Valid c v) :=
  inferInstanceAs (Decidable (_ ∧ _))

/-- All capacities are positive. -/
def PosConstraints (c : List Int) : Prop :=
  ∀ i, i < c.length → 0 < c.getD i 0

instance (c : List Int) : Decidable (PosConstraints c) :=
  inferInstanceAs (Decidable (∀ i, i < c.length → 0 < c.getD i 0))

/-- One legal move: `w` is among the neighbor values of `v`. -/
def stepTo (c : List Int) (ar : Bool) (v w : Values) : Prop :=
  w ∈ neighborValues c ar v

instance (c : List Int) (ar : Bool) (v w : Values) : Decidable (stepTo c ar v w) :=
  inferInstanceAs (Decidable (w ∈ neighborValues c ar v))

/-- The state `w` is reachable from `v₀` by exactly `n` legal moves. -/
inductive ReachesIn (c : List Int) (ar : Bool) (v₀ : Values) : Nat → Values → Prop
  | refl : ReachesIn c ar v₀ 0 v₀
  | tail {n : Nat} {u w : Values} :
      ReachesIn c ar v₀ n u → stepTo c ar u w → ReachesIn c ar v₀ (n + 1) w

/-- A legal sequence of states: consecutive elements are related by one
move. -/
def LegalPath (c : List Int) (ar : Bool) (p : List Values) : Prop :=
  List.Chain' (stepTo c ar) p

instance instDecidableLegalPath (c : List Int) (ar : Bool) :
    (p : List Values) → Decidable (LegalPath c ar p)
  | [] => isTrue trivial
  | [_] => isTrue List.Chain.nil
  | v :: w :: rest =>
    haveI := instDecidableLegalPath c ar (w :: rest)
    decidable_of_iff (stepTo c ar v w ∧ LegalPath c ar (w :: rest)) List.chain'_cons.symm

/-- The keys (state values) of the explored map, in insertion order. -/
def keysOf (e : Explored) : List Values := e.map Prod.fst

/-- Correct reconstruction certificate: running the `unravel_bfs` loop
from state `v` on the map `e`, with fuel one more than the recorded
path length, yields the sentinel followed by the path `p`;
`p.length ≤ e.length` guarantees the fuel baked into `unravel_bfs`
suffices. -/
def UnravelSpec (e : Explored) (v : Values) (p : List Values) : Prop :=
  unravelLoop e (p.length + 1) (some v) [] = none :: p.map some ∧ p.length ≤ e.length

/-- The finite set of all valid configurations for capacities `c`. -/
def validTuples : List Int → Finset Values
  | [] => {[]}
  | b :: bs => (Finset.range (b.toNat + 1)).biUnion
      (fun h => (validTuples bs).image (fun tl => ((h : Int) :: tl)))

/-- The state `w` is reachable from `v₀` by some number of legal moves. -/
def reachableW (c : List Int) (ar : Bool) (v₀ w : Values) : Prop :=
  ∃ n, ReachesIn c ar v₀ n w

/-- The least number of legal moves from `v₀` to `w` (0 if unreachable);
specification-level ghost quantity, not part of the embedded code. -/
noncomputable def distW (c : List Int) (ar : Bool) (v₀ w : Values) : Nat :=
  sInf {n | ReachesIn c ar v₀ n w}

/-- The invariant maintained by the `while queue:` loop of
`breadth_first_search`, relative to the search parameters and the
initial values `v₀`.  `d` is the BFS layer currently being expanded:
the queue is a block of states at distance `d` followed by a block at
distance `d + 1`. -/
structure BFSInv (c : List Int) (t : Int) (ar : Bool) (v₀ : Values)
    (queue : List Values) (e : Explored) (d : Nat) : Prop where
  head_init : ∃ tl, e = (v₀, none) :: tl
  nodup : (keysOf e).Nodup
  valid : ∀ v ∈ keysOf e, Valid c v
  unravel : ∀ v ∈ keysOf e, ∃ p, UnravelSpec e v p ∧ LegalPath c ar p ∧
    p.head? = some v₀ ∧ p.getLast? = some v ∧ p.length = distW c ar v₀ v + 1
  queue_sub : ∀ v ∈ queue, v ∈ keysOf e
  layers : ∃ qa qb, queue = qa ++ qb ∧ (∀ x ∈ qa, distW c ar v₀ x = d) ∧
    (∀ x ∈ qb, distW c ar v₀ x = d + 1)
  complete : ∀ w, reachableW c ar v₀ w → distW c ar v₀ w ≤ d → w ∈ keysOf e
  processed : ∀ v ∈ keysOf e, v ∉ queue →
    isGoalV t v = false ∧ ∀ n ∈ neighborValues c ar v, n ∈ keysOf e


/-! ### Basic lemmas about `replaceAt` -/

lemma replaceAt_length {v : Values} {i : Nat} (h : i < v.length) (x : Int) :
    (replaceAt v i x).length = v.length := by
  simp [replaceAt]
  omega

lemma replaceAt_getD {v : Values} {i : Nat} (h : i < v.length) (x : Int) (k : Nat) :
    (replaceAt v i x).getD k 0 = if k = i then x else v.getD k 0 := by
  induction v generalizing i k with
  | nil => simp at h
  | cons a v ih =>
    cases i with
    | zero =>
      cases k with
      | zero => simp [replaceAt]
      | succ k => simp [replaceAt]
    | succ i =>
      have hi : i < v.length := by simpa using h
      cases k with
      | zero => simp [replaceAt]
      | succ k =>
        have : replaceAt (a :: v) (i + 1) x = a :: replaceAt v i x := by
          simp [replaceAt]
        rw [this]
        simpa using ih hi k

lemma replaceAt_self {v : Values} {i : Nat} (h : i < v.length) :
    replaceAt v i (v.getD i 0) = v := by
  induction v generalizing i with
  | nil => simp at h
  | cons a v ih =>
    cases i with
    | zero => simp [replaceAt]
    | succ i =>
      have hi : i < v.length := by simpa using h
      have : replaceAt (a :: v) (i + 1) ((a :: v).getD (i + 1) 0) =
          a :: replaceAt v i (v.getD i 0) := by simp [replaceAt]
      rw [this, ih hi]

lemma eq_iff_getD {v w : Values} (hl : v.length = w.length) :
    v = w ↔ ∀ k, k < v.length → v.getD k 0 = w.getD k 0 := by
  constructor
  · rintro rfl _ _; rfl
  · intro h
    apply List.ext_getElem hl
    intro k hk hk'
    have := h k hk
    simpa [List.getD_eq_getElem?_getD, List.getElem?_eq_getElem, hk, hk'] using this

/-! ### Characterization of neighbor membership -/

lemma mem_neighborValues {c : List Int} {ar : Bool} {v n : Values} :
    n ∈ neighborValues c ar v ↔
      (∃ i, i < v.length ∧ v.getD i 0 ≠ 0 ∧ n = replaceAt v i 0) ∨
      (∃ i, i < v.length ∧ v.getD i 0 ≠ c.getD i 0 ∧ ar = true ∧
        n = replaceAt v i (c.getD i 0)) ∨
      (∃ i j, i < v.length ∧ j < v.length ∧ i ≠ j ∧ v.getD i 0 ≠ 0 ∧
        0 ≤ c.getD j 0 - v.getD j 0 ∧ n = pourResult c v i j) := by
  unfold neighborValues
  simp only [List.mem_append, List.mem_flatMap, List.mem_range]
  constructor
  · rintro (⟨i, hi, hmem | hmem⟩ | ⟨i, hi, hmem⟩)
    · by_cases h0 : v.getD i 0 ≠ 0
      · rw [if_pos h0] at hmem
        simp only [List.mem_singleton] at hmem
        exact Or.inl ⟨i, hi, h0, hmem⟩
      · rw [if_neg h0] at hmem
        exact absurd hmem (List.not_mem_nil n)
    · by_cases hf : v.getD i 0 ≠ c.getD i 0 ∧ ar = true
      · rw [if_pos hf] at hmem
        simp only [List.mem_singleton] at hmem
        exact Or.inr (Or.inl ⟨i, hi, hf.1, hf.2, hmem⟩)
      · rw [if_neg hf] at hmem
        exact absurd hmem (List.not_mem_nil n)
    · by_cases h0 : v.getD i 0 ≠ 0
      · rw [if_pos h0, List.mem_filterMap] at hmem
        rcases hmem with ⟨j, hjmem, hcase⟩
        have hj : j < v.length := List.mem_range.1 hjmem
        by_cases hij : i ≠ j
        · rw [if_pos hij] at hcase
          by_cases hsp : 0 ≤ c.getD j 0 - v.getD j 0
          · rw [if_pos hsp] at hcase
            injection hcase with hn
            exact Or.inr (Or.inr ⟨i, j, hi, hj, hij, h0, hsp, hn.symm⟩)
          · rw [if_neg hsp] at hcase
            exact Option.noConfusion hcase
        · rw [if_neg hij] at hcase
          exact Option.noConfusion hcase
      · rw [if_neg h0] at hmem
        exact absurd hmem (List.not_mem_nil n)
  · rintro (⟨i, hi, h0, rfl⟩ | ⟨i, hi, hne, har, rfl⟩ | ⟨i, j, hi, hj, hij, h0, hsp, rfl⟩)
    · exact Or.inl ⟨i, hi, Or.inl (by rw [if_pos h0]; exact List.mem_singleton.2 rfl)⟩
    · refine Or.inl ⟨i, hi, Or.inr ?_⟩
      rw [if_pos (show v.getD i 0 ≠ c.getD i 0 ∧ ar = true from ⟨hne, har⟩)]
      exact List.mem_singleton.2 rfl
    · refine Or.inr ⟨i, hi, ?_⟩
      rw [if_pos h0, List.mem_filterMap]
      exact ⟨j, List.mem_range.2 hj, by rw [if_pos hij, if_pos hsp]⟩

/-! ### The capacity invariant is preserved (engine-level) -/

lemma pourResult_length {c : List Int} {v : Values} {i j : Nat}
    (hi : i < v.length) (hj : j < v.length) :
    (pourResult c v i j).length = v.length := by
  unfold pourResult
  rw [replaceAt_length, replaceAt_length hj]
  rw [replaceAt_length hj]
  exact hi

lemma pourResult_getD {c : List Int} {v : Values} {i j : Nat}
    (hi : i < v.length) (hj : j < v.length) (hij : i ≠ j) (k : Nat) :
    (pourResult c v i j).getD k 0 =
      if k = i then v.getD i 0 - min (v.getD i 0) (c.getD j 0 - v.getD j 0)
      else if k = j then v.getD j 0 + min (v.getD i 0) (c.getD j 0 - v.getD j 0)
      else v.getD k 0 := by
  unfold pourResult
  have hlen : (replaceAt v j (v.getD j 0 + min (v.getD i 0) (c.getD j 0 - v.getD j 0))).length
      = v.length := replaceAt_length hj _
  rw [replaceAt_getD (by rw [hlen]; exact hi)]
  by_cases hk : k = i
  · simp [hk]
  · rw [if_neg hk, replaceAt_getD hj, if_neg hk]

lemma replaceAt_getD_self {v : Values} {i : Nat} (h : i < v.length) (x : Int) :
    (replaceAt v i x).getD i 0 = x := by
  rw [replaceAt_getD h]
  simp

lemma replaceAt_getD_ne {v : Values} {i k : Nat} (h : i < v.length) (x : Int) (hk : k ≠ i) :
    (replaceAt v i x).getD k 0 = v.getD k 0 := by
  rw [replaceAt_getD h]
  simp [hk]

lemma pourResult_getD_src {c : List Int} {v : Values} {i j : Nat}
    (hi : i < v.length) (hj : j < v.length) (hij : i ≠ j) :
    (pourResult c v i j).getD i 0 =
      v.getD i 0 - min (v.getD i 0) (c.getD j 0 - v.getD j 0) := by
  rw [pourResult_getD hi hj hij]
  simp

lemma pourResult_getD_dst {c : List Int} {v : Values} {i j : Nat}
    (hi : i < v.length) (hj : j < v.length) (hij : i ≠ j) :
    (pourResult c v i j).getD j 0 =
      v.getD j 0 + min (v.getD i 0) (c.getD j 0 - v.getD j 0) := by
  rw [pourResult_getD hi hj hij]
  simp [Ne.symm hij]

lemma pourResult_getD_other {c : List Int} {v : Values} {i j k : Nat}
    (hi : i < v.length) (hj : j < v.length) (hij : i ≠ j)
    (hki : k ≠ i) (hkj : k ≠ j) :
    (pourResult c v i j).getD k 0 = v.getD k 0 := by
  rw [pourResult_getD hi hj hij]
  simp [hki, hkj]

lemma valid_step {c : List Int} {ar : Bool} {v w : Values}
    (hv : Valid c v) (hs : stepTo c ar v w) : Valid c w := by
  obtain ⟨hlen, hbd⟩ := hv
  rcases mem_neighborValues.1 hs with
    ⟨i, hi, h0, rfl⟩ | ⟨i, hi, hne, har, rfl⟩ | ⟨i, j, hi, hj, hij, h0, hsp, rfl⟩
  · refine ⟨by rw [replaceAt_length hi]; exact hlen, ?_⟩
    intro k hk
    rw [replaceAt_length hi] at hk
    rw [replaceAt_getD hi]
    by_cases hki : k = i
    · subst hki
      have := hbd k hk
      simp only [if_pos rfl]
      omega
    · rw [if_neg hki]
      exact hbd k hk
  · refine ⟨by rw [replaceAt_length hi]; exact hlen, ?_⟩
    intro k hk
    rw [replaceAt_length hi] at hk
    rw [replaceAt_getD hi]
    by_cases hki : k = i
    · subst hki
      have := hbd k hk
      simp only [if_pos rfl]
      omega
    · rw [if_neg hki]
      exact hbd k hk
  · refine ⟨by rw [pourResult_length hi hj]; exact hlen, ?_⟩
    intro k hk
    rw [pourResult_length hi hj] at hk
    rw [pourResult_getD hi hj hij]
    have hbi := hbd i hi
    have hbj := hbd j hj
    have hm1 : min (v.getD i 0) (c.getD j 0 - v.getD j 0) ≤ v.getD i 0 := min_le_left _ _
    have hm2 : min (v.getD i 0) (c.getD j 0 - v.getD j 0) ≤ c.getD j 0 - v.getD j 0 :=
      min_le_right _ _
    have hm0 : 0 ≤ min (v.getD i 0) (c.getD j 0 - v.getD j 0) := le_min hbi.1 hsp
    by_cases hki : k = i
    · subst hki
      simp only [if_pos rfl]
      omega
    · rw [if_neg hki]
      by_cases hkj : k = j
      · subst hkj
        simp only [if_pos rfl]
        omega
      · rw [if_neg hkj]
        exact hbd k hk

/-- C4: for every configuration satisfying the capacity invariant (with
positive constraints), every state returned by `get_neighbors` also
satisfies the capacity invariant `0 ≤ values[i] ≤ constraints[i]`. -/
theorem get_neighbors_preserves_invariant (s : State)
    (hval : Valid s.constraints s.values) (hpos : PosConstraints s.constraints) :
    ∀ s' ∈ s.get_neighbors, Valid s'.constraints s'.values := by
  intro s' hs'
  rcases List.mem_map.1 hs' with ⟨n, hn, rfl⟩
  exact valid_step hval hn

/-- Witness for C4 at the configuration `(1, 2)` with capacities `(5, 3)`. -/
theorem get_neighbors_preserves_invariant_witness :
    Valid [5, 3] [1, 2] ∧ PosConstraints [5, 3] ∧
      ∀ s' ∈ (State.mk [1, 2] [5, 3] 4 true).get_neighbors,
        Valid s'.constraints s'.values :=
  ⟨by decide, by decide,
    get_neighbors_preserves_invariant (State.mk [1, 2] [5, 3] 4 true)
      (by decide) (by decide)⟩

/-! ### Self-neighbors (claim C3) and the fill move (claim C7) -/

lemma exists_values_get_neighbors (s : State) (w : Values) :
    (∃ s' ∈ s.get_neighbors, s'.values = w) ↔
      w ∈ neighborValues s.constraints s.allow_refills s.values := by
  unfold State.get_neighbors
  constructor
  · rintro ⟨s', hs', hv⟩
    rcases List.mem_map.1 hs' with ⟨n, hn, rfl⟩
    simpa [← hv] using hn
  · intro hw
    exact ⟨_, List.mem_map_of_mem _ hw, rfl⟩

/-- C3 is false on the code: for the valid configuration `(5, 3)` with
capacities `(5, 3)`, `get_neighbors` contains a state equal (by values)
to the configuration itself — the pour from the non-empty bucket 0
into the full bucket 1 moves 0 water and reproduces the source
configuration. -/
theorem get_neighbors_self_counterexample :
    Valid [5, 3] [5, 3] ∧
      ∃ s' ∈ (State.mk [5, 3] [5, 3] 4 true).get_neighbors,
        s'.values = (State.mk [5, 3] [5, 3] 4 true).values := by
  decide

/-- C3 amended: for a valid configuration, `get_neighbors` contains a
state equal (by values) to the configuration itself exactly when some
bucket `i` is non-empty and some other bucket `j` is full (the
zero-water pour from `i` into `j`); in all other situations no neighbor
equals the configuration. -/
theorem get_neighbors_self_iff_zero_pour (s : State)
    (hval : Valid s.constraints s.values) :
    (∃ s' ∈ s.get_neighbors, s'.values = s.values) ↔
      ∃ i j, i < s.values.length ∧ j < s.values.length ∧ i ≠ j ∧
        s.values.getD i 0 ≠ 0 ∧
        s.values.getD j 0 = s.constraints.getD j 0 := by
  rw [exists_values_get_neighbors]
  obtain ⟨hlen, hbd⟩ := hval
  constructor
  · intro hmem
    rcases mem_neighborValues.1 hmem with
      ⟨i, hi, h0, hrep⟩ | ⟨i, hi, hne, har, hrep⟩ | ⟨i, j, hi, hj, hij, h0, hsp, hrep⟩
    · have h1 : (replaceAt s.values i 0).getD i 0 = s.values.getD i 0 := by rw [← hrep]
      rw [replaceAt_getD_self hi] at h1
      exact absurd h1.symm h0
    · have h1 : (replaceAt s.values i (s.constraints.getD i 0)).getD i 0
          = s.values.getD i 0 := by rw [← hrep]
      rw [replaceAt_getD_self hi] at h1
      exact absurd h1.symm hne
    · have heq : (pourResult s.constraints s.values i j).getD i 0
          = s.values.getD i 0 := by rw [← hrep]
      rw [pourResult_getD_src hi hj hij] at heq
      have hm : min (s.values.getD i 0) (s.constraints.getD j 0 - s.values.getD j 0) = 0 := by
        omega
      have hvi := (hbd i hi).1
      have hvj : s.values.getD j 0 = s.constraints.getD j 0 := by
        rcases min_cases (s.values.getD i 0) (s.constraints.getD j 0 - s.values.getD j 0) with
          ⟨h1, h2⟩ | ⟨h1, h2⟩ <;> omega
      exact ⟨i, j, hi, hj, hij, h0, hvj⟩
  · rintro ⟨i, j, hi, hj, hij, h0, hfull⟩
    apply mem_neighborValues.2
    refine Or.inr (Or.inr ⟨i, j, hi, hj, hij, h0, ?_, ?_⟩)
    · omega
    · have hsp0 : s.constraints.getD j 0 - s.values.getD j 0 = 0 := by omega
      have hm : min (s.values.getD i 0) (0 : Int) = 0 := min_eq_right (hbd i hi).1
      unfold pourResult
      rw [hsp0, hm, add_zero, sub_zero, replaceAt_self hj, replaceAt_self hi]

/-- Witness for the amended C3 at the configuration `(5, 3)`,
capacities `(5, 3)` (where a self-neighbor does occur). -/
theorem get_neighbors_self_iff_zero_pour_witness :
    Valid [5, 3] [5, 3] ∧
      ((∃ s' ∈ (State.mk [5, 3] [5, 3] 4 true).get_neighbors,
          s'.values = (State.mk [5, 3] [5, 3] 4 true).values) ↔
        ∃ i j, i < ([5, 3] : Values).length ∧ j < ([5, 3] : Values).length ∧ i ≠ j ∧
          ([5, 3] : Values).getD i 0 ≠ 0 ∧
          ([5, 3] : Values).getD j 0 = ([5, 3] : List Int).getD j 0) :=
  ⟨by decide, get_neighbors_self_iff_zero_pour (State.mk [5, 3] [5, 3] 4 true) (by decide)⟩

lemma fill_mem_iff {c : List Int} {ar : Bool} {v : Values} {i : Nat}
    (hv : Valid c v) (hpos : PosConstraints c) (hi : i < v.length)
    (hne : v.getD i 0 ≠ c.getD i 0) :
    replaceAt v i (c.getD i 0) ∈ neighborValues c ar v ↔ ar = true := by
  obtain ⟨hlen, hbd⟩ := hv
  have hposi : 0 < c.getD i 0 := hpos i (hlen ▸ hi)
  constructor
  · intro hmem
    rcases mem_neighborValues.1 hmem with
      ⟨k, hk, h0, hrep⟩ | ⟨k, hk, hnk, har, hrep⟩ | ⟨a, b, ha, hb, hab, h0, hsp, hrep⟩
    · by_cases hki : k = i
      · subst hki
        have h1 : (replaceAt v k 0).getD k 0 = (replaceAt v k (c.getD k 0)).getD k 0 := by
          rw [← hrep]
        rw [replaceAt_getD_self hk, replaceAt_getD_self hk] at h1
        omega
      · have h1 : (replaceAt v k 0).getD i 0 = (replaceAt v i (c.getD i 0)).getD i 0 := by
          rw [← hrep]
        rw [replaceAt_getD_ne hk 0 (fun h => hki h.symm), replaceAt_getD_self hi] at h1
        exact absurd h1 hne
    · exact har
    · exfalso
      have hva := (hbd a ha).1
      have hm0 : 0 ≤ min (v.getD a 0) (c.getD b 0 - v.getD b 0) := le_min hva hsp
      by_cases hai : a = i
      · subst hai
        have hbi : b ≠ a := fun h => hab h.symm
        have h2 : (pourResult c v a b).getD b 0 = (replaceAt v a (c.getD a 0)).getD b 0 := by
          rw [← hrep]
        rw [pourResult_getD_dst ha hb hab, replaceAt_getD_ne ha _ hbi] at h2
        have hm : min (v.getD a 0) (c.getD b 0 - v.getD b 0) = 0 := by omega
        have h1 : (pourResult c v a b).getD a 0 = (replaceAt v a (c.getD a 0)).getD a 0 := by
          rw [← hrep]
        rw [pourResult_getD_src ha hb hab, replaceAt_getD_self ha, hm] at h1
        omega
      · have h1 : (pourResult c v a b).getD a 0 = (replaceAt v i (c.getD i 0)).getD a 0 := by
          rw [← hrep]
        rw [pourResult_getD_src ha hb hab, replaceAt_getD_ne hi _ hai] at h1
        have hm : min (v.getD a 0) (c.getD b 0 - v.getD b 0) = 0 := by omega
        by_cases hbi : b = i
        · subst hbi
          have h2 : (pourResult c v a b).getD b 0 = (replaceAt v b (c.getD b 0)).getD b 0 := by
            rw [← hrep]
          rw [pourResult_getD_dst ha hb hab, replaceAt_getD_self hb, hm] at h2
          exact hne (by omega)
        · have h3 : (pourResult c v a b).getD i 0 = (replaceAt v i (c.getD i 0)).getD i 0 := by
            rw [← hrep]
          rw [pourResult_getD_other ha hb hab (fun h => hai h.symm) (fun h => hbi h.symm),
            replaceAt_getD_self hi] at h3
          exact hne h3
  · intro har
    exact mem_neighborValues.2 (Or.inr (Or.inl ⟨i, hi, hne, har, rfl⟩))

/-- C7 is false on the code: for the valid configuration `(5, 3)` with
capacities `(5, 3)` and `allow_refills = False`, the fill-to-capacity
configuration for bucket 0 (namely `(5, 3)`, the configuration itself)
is emitted by `get_neighbors` (via a zero-water pour), although
`allow_refills and values[0] != constraints[0]` is false. -/
theorem fill_move_counterexample :
    Valid [5, 3] [5, 3] ∧
      (∃ s' ∈ (State.mk [5, 3] [5, 3] 4 false).get_neighbors,
        s'.values = replaceAt [5, 3] 0 (([5, 3] : List Int).getD 0 0)) ∧
      ¬((State.mk [5, 3] [5, 3] 4 false).allow_refills = true ∧
        ([5, 3] : Values).getD 0 0 ≠ ([5, 3] : List Int).getD 0 0) := by
  refine ⟨by decide, ?_, by decide⟩
  decide

/-- C7 amended: for a valid configuration with positive constraints and
a bucket `i` that is not full (`values[i] ≠ constraints[i]`), the
fill-to-capacity configuration for bucket `i` is emitted by
`get_neighbors` if and only if `allow_refills` is true; in particular
with `allow_refills = False` no fill neighbor is produced (buckets can
still gain water via pours).  (For a bucket that is already full the
"fill configuration" coincides with the configuration itself, which can
also be emitted by a zero-water pour, so the restriction to non-full
buckets is necessary.) -/
theorem fill_move_iff_allow_refills (s : State) (i : Nat)
    (hval : Valid s.constraints s.values) (hpos : PosConstraints s.constraints)
    (hi : i < s.values.length)
    (hne : s.values.getD i 0 ≠ s.constraints.getD i 0) :
    (∃ s' ∈ s.get_neighbors,
        s'.values = replaceAt s.values i (s.constraints.getD i 0)) ↔
      s.allow_refills = true := by
  rw [exists_values_get_neighbors]
  exact fill_mem_iff hval hpos hi hne

/-- Witness for the amended C7 at the configuration `(3, 0)` with
capacities `(5, 3)` and `allow_refills = False`. -/
theorem fill_move_iff_allow_refills_witness :
    Valid [5, 3] [3, 0] ∧ PosConstraints [5, 3] ∧ (0 : Nat) < ([3, 0] : Values).length ∧
      ([3, 0] : Values).getD 0 0 ≠ ([5, 3] : List Int).getD 0 0 ∧
      ((∃ s' ∈ (State.mk [3, 0] [5, 3] 4 false).get_neighbors,
          s'.values = replaceAt [3, 0] 0 (([5, 3] : List Int).getD 0 0)) ↔
        (State.mk [3, 0] [5, 3] 4 false).allow_refills = true) :=
  ⟨by decide, by decide, by decide, by decide,
    fill_move_iff_allow_refills (State.mk [3, 0] [5, 3] 4 false) 0
      (by decide) (by decide) (by decide) (by decide)⟩

/-! ### `argmax` (claim C9) -/

lemma argmaxLoop_spec {α β : Type _} [LinearOrder β] (f : α → β) :
    ∀ (l : List α) (arg : α),
      (argmaxLoop f l arg (f arg) = arg ∧ ∀ x ∈ l, f x ≤ f arg) ∨
      (∃ l₁ l₂, l = l₁ ++ argmaxLoop f l arg (f arg) :: l₂ ∧
        f arg < f (argmaxLoop f l arg (f arg)) ∧
        (∀ x ∈ l₁, f x < f (argmaxLoop f l arg (f arg))) ∧
        (∀ x ∈ l₂, f x ≤ f (argmaxLoop f l arg (f arg)))) := by
  intro l
  induction l with
  | nil => intro arg; exact Or.inl ⟨rfl, by simp⟩
  | cons i rest ih =>
    intro arg
    by_cases hgt : f i > f arg
    · have hstep : argmaxLoop f (i :: rest) arg (f arg) = argmaxLoop f rest i (f i) := by
        simp [argmaxLoop, hgt]
      rw [hstep]
      rcases ih i with ⟨heq, hle⟩ | ⟨l₁, l₂, hsplit, hlt, hl₁, hl₂⟩
      · rw [heq]
        exact Or.inr ⟨[], rest, by simp, hgt, by simp, hle⟩
      · refine Or.inr ⟨i :: l₁, l₂, congrArg (List.cons i) hsplit, lt_trans hgt hlt, ?_, hl₂⟩
        intro x hx
        rcases List.mem_cons.1 hx with rfl | hx
        · exact hlt
        · exact hl₁ x hx
    · have hstep : argmaxLoop f (i :: rest) arg (f arg) = argmaxLoop f rest arg (f arg) := by
        simp [argmaxLoop, hgt]
      rw [hstep]
      have hle_i : f i ≤ f arg := not_lt.1 hgt
      rcases ih arg with ⟨heq, hle⟩ | ⟨l₁, l₂, hsplit, hlt, hl₁, hl₂⟩
      · refine Or.inl ⟨heq, ?_⟩
        intro x hx
        rcases List.mem_cons.1 hx with rfl | hx
        · exact hle_i
        · exact hle x hx
      · refine Or.inr ⟨i :: l₁, l₂, congrArg (List.cons i) hsplit, hlt, ?_, hl₂⟩
        intro x hx
        rcases List.mem_cons.1 hx with rfl | hx
        · exact lt_of_le_of_lt hle_i hlt
        · exact hl₁ x hx

/-- C9: `argmax` on an empty collection returns the `EmptyDomain`
error (Python `IndexError('domain is empty:', domain)`); on a non-empty
collection it returns an element attaining the maximum function value,
and on ties the first-seen maximum is kept (every element strictly
before the returned one in the collection has a strictly smaller
function value). -/
theorem argmax_spec {α β : Type _} [LinearOrder β] (domain : List α) (f : α → β) :
    (domain = [] → argmax domain f = Except.error ("domain is empty:", [])) ∧
    (domain ≠ [] → ∃ r l₁ l₂, argmax domain f = Except.ok r ∧
      domain = l₁ ++ r :: l₂ ∧ (∀ x ∈ domain, f x ≤ f r) ∧ ∀ x ∈ l₁, f x < f r) := by
  constructor
  · rintro rfl
    rfl
  · intro hne
    match domain with
    | [] => exact absurd rfl hne
    | d :: rest =>
      have hrun : argmax (d :: rest) f = Except.ok (argmaxLoop f (d :: rest) d (f d)) := rfl
      rcases argmaxLoop_spec f (d :: rest) d with ⟨heq, hle⟩ | ⟨l₁, l₂, hsplit, hlt, hl₁, hl₂⟩
      · exact ⟨d, [], rest, by rw [hrun, heq], by simp, hle, by simp⟩
      · refine ⟨argmaxLoop f (d :: rest) d (f d), l₁, l₂, hrun, hsplit, ?_, hl₁⟩
        intro x hx
        rw [hsplit] at hx
        rcases List.mem_append.1 hx with hx | hx
        · exact le_of_lt (hl₁ x hx)
        · rcases List.mem_cons.1 hx with rfl | hx
          · exact le_refl _
          · exact hl₂ x hx

/-- Witness for C9: the empty-domain error on `[] : List Int`, and the
first-seen maximum on the collection `[2, 5, 5, 1]` (the result is the
first `5`, at position 1). -/
theorem argmax_spec_witness :
    argmax ([] : List Int) (id : Int → Int) = Except.error ("domain is empty:", []) ∧
      ∃ r l₁ l₂, argmax ([2, 5, 5, 1] : List Int) (id : Int → Int) = Except.ok r ∧
        ([2, 5, 5, 1] : List Int) = l₁ ++ r :: l₂ ∧
        (∀ x ∈ ([2, 5, 5, 1] : List Int), id x ≤ id r) ∧ ∀ x ∈ l₁, id x < id r :=
  ⟨(argmax_spec ([] : List Int) (id : Int → Int)).1 rfl,
    (argmax_spec ([2, 5, 5, 1] : List Int) (id : Int → Int)).2 (by decide)⟩

/-! ### The canonical (5, 3) → 4 instance (claim C5) -/

/-- C5: for the initial state `(0, 0)` with capacities `(5, 3)`,
target `4` and refills allowed, `breadth_first_search` returns the
sentinel followed by a solution of 7 states (6 moves): a legal move
sequence starting at `(0, 0)` whose final state has a bucket
holding 4. -/
theorem bfs_bucket_5_3_target_4 :
    ∃ p : List Values,
      breadth_first_search (State.mk [0, 0] [5, 3] 4 true) = none :: p.map some ∧
      p.length = 7 ∧ p.head? = some [0, 0] ∧ LegalPath [5, 3] true p ∧
      ∃ g, p.getLast? = some g ∧ (4 : Int) ∈ g :=
  ⟨[[0, 0], [5, 0], [2, 3], [2, 0], [0, 2], [5, 2], [4, 3]],
    by decide, by decide, by decide, by decide, ⟨[4, 3], by decide, by decide⟩⟩

/-! ### An already-solved initial state (claim C2) -/

/-- C2 is false on the code: for an initial state that already satisfies
`is_goal` (here `(0, 0)` with target `0`), `breadth_first_search`
returns a two-element list — the `()` sentinel recorded as the initial
state's predecessor, followed by the state — not a single-element
path. -/
theorem bfs_initial_goal_counterexample :
    (State.mk [0, 0] [5, 3] 0 true).is_goal = true ∧
      (breadth_first_search (State.mk [0, 0] [5, 3] 0 true)).length ≠ 1 := by
  decide

/-- C2 amended: for every initial state that already satisfies
`is_goal`, `breadth_first_search` returns the two-element list
consisting of the `()` sentinel followed by exactly that state. -/
theorem bfs_initial_goal_sentinel_path (s : State) (hg : s.is_goal = true) :
    breadth_first_search s = [none, some s.values] := by
  have hgoal : isGoalV s.target s.values = true := hg
  simp [breadth_first_search, bfsLoop, hgoal, unravel_bfs, unravelLoop, lookupExp, List.find?]

/-- Witness for the amended C2 at the already-solved state `(0, 0)`
with target `0`. -/
theorem bfs_initial_goal_sentinel_path_witness :
    (State.mk [0, 0] [5, 3] 0 true).is_goal = true ∧
      breadth_first_search (State.mk [0, 0] [5, 3] 0 true) = [none, some [0, 0]] :=
  ⟨by decide, bfs_initial_goal_sentinel_path (State.mk [0, 0] [5, 3] 0 true) (by decide)⟩

/-! ### The explored map: lookup and path reconstruction -/

lemma lookupExp_eq_none {v : Values} {e : Explored} :
    lookupExp v e = none ↔ v ∉ keysOf e := by
  unfold lookupExp keysOf
  rw [Option.map_eq_none', List.find?_eq_none]
  constructor
  · intro h hv
    rcases List.mem_map.1 hv with ⟨x, hx, hfst⟩
    exact h x hx (by simp [hfst])
  · intro h x hx hdec
    exact h (List.mem_map.2 ⟨x, hx, by simpa using hdec⟩)

lemma lookupExp_isSome_iff {v : Values} {e : Explored} :
    (lookupExp v e).isSome = true ↔ v ∈ keysOf e := by
  constructor
  · intro hs
    by_contra hv
    rw [lookupExp_eq_none.2 hv] at hs
    simp at hs
  · intro hv
    cases h : lookupExp v e with
    | none => exact absurd hv (lookupExp_eq_none.1 h)
    | some p => rfl

lemma lookupExp_append_left {v : Values} {e : Explored} (ext : Explored)
    (h : v ∈ keysOf e) : lookupExp v (e ++ ext) = lookupExp v e := by
  unfold lookupExp
  rw [List.find?_append]
  have hs : (List.find? (fun p => decide (p.1 = v)) e).isSome = true := by
    have := lookupExp_isSome_iff.2 h
    unfold lookupExp at this
    rwa [Option.isSome_map'] at this
  rcases Option.isSome_iff_exists.1 hs with ⟨x, hx⟩
  rw [hx]
  rfl

lemma lookupExp_append_self {v : Values} {e : Explored} (p : Option Values)
    (h : v ∉ keysOf e) : lookupExp v (e ++ [(v, p)]) = some p := by
  unfold lookupExp
  rw [List.find?_append]
  have h1 : List.find? (fun q => decide (q.1 = v)) e = none := by
    have := lookupExp_eq_none.2 h
    unfold lookupExp at this
    rwa [Option.map_eq_none'] at this
  rw [h1]
  simp [List.find?]

lemma unravelLoop_none (e : Explored) (fuel : Nat) (acc : List (Option Values)) :
    unravelLoop e fuel none acc = none :: acc := by
  cases fuel <;> rfl

lemma unravelLoop_succ_none {e : Explored} {v : Values} (f : Nat)
    (acc : List (Option Values)) (h : lookupExp v e = none) :
    unravelLoop e (f + 1) (some v) acc = some v :: acc := by
  show (match lookupExp v e with
        | none => some v :: acc
        | some pred => unravelLoop e f pred (some v :: acc)) = _
  rw [h]

lemma unravelLoop_succ_some {e : Explored} {v : Values} {pred : Option Values} (f : Nat)
    (acc : List (Option Values)) (h : lookupExp v e = some pred) :
    unravelLoop e (f + 1) (some v) acc = unravelLoop e f pred (some v :: acc) := by
  show (match lookupExp v e with
        | none => some v :: acc
        | some pred => unravelLoop e f pred (some v :: acc)) = _
  rw [h]

lemma unravelLoop_acc (e : Explored) :
    ∀ (fuel : Nat) (cur : Option Values) (acc : List (Option Values)),
      unravelLoop e fuel cur acc = unravelLoop e fuel cur [] ++ acc := by
  intro fuel
  induction fuel with
  | zero => intro cur acc; rfl
  | succ f ih =>
    intro cur acc
    match cur with
    | none => rw [unravelLoop_none, unravelLoop_none]; rfl
    | some v =>
      cases hl : lookupExp v e with
      | none => rw [unravelLoop_succ_none f acc hl, unravelLoop_succ_none f [] hl]; rfl
      | some pred =>
        rw [unravelLoop_succ_some f acc hl, unravelLoop_succ_some f [] hl,
          ih pred (some v :: acc), ih pred [some v], List.append_assoc]
        rfl

lemma unravelLoop_agree {e e' : Explored}
    (hag : ∀ w, (lookupExp w e).isSome = true → lookupExp w e' = lookupExp w e) :
    ∀ (fuel : Nat) (cur : Option Values) (acc : List (Option Values)),
      (unravelLoop e fuel cur acc).head? = some none →
      unravelLoop e' fuel cur acc = unravelLoop e fuel cur acc := by
  intro fuel
  induction fuel with
  | zero => intro cur acc _; rfl
  | succ f ih =>
    intro cur acc hhead
    match cur with
    | none => rw [unravelLoop_none, unravelLoop_none]
    | some v =>
      cases hl : lookupExp v e with
      | none =>
        rw [unravelLoop_succ_none f acc hl] at hhead
        simp at hhead
      | some pred =>
        rw [unravelLoop_succ_some f acc hl] at hhead
        rw [unravelLoop_succ_some f acc hl,
          unravelLoop_succ_some f acc (by rw [hag v (by rw [hl]; rfl)]; exact hl)]
        exact ih pred (some v :: acc) hhead

lemma unravelLoop_fuel_mono {e : Explored} :
    ∀ (fuel : Nat) (cur : Option Values) (acc : List (Option Values)),
      (unravelLoop e fuel cur acc).head? = some none →
      ∀ k, unravelLoop e (fuel + k) cur acc = unravelLoop e fuel cur acc := by
  intro fuel
  induction fuel with
  | zero =>
    intro cur acc hhead k
    have hcur : cur = none := by
      have h1 : (cur :: acc).head? = some none := hhead
      simpa using h1
    subst hcur
    rw [unravelLoop_none, unravelLoop_none]
  | succ f ih =>
    intro cur acc hhead k
    match cur with
    | none => rw [unravelLoop_none, unravelLoop_none]
    | some v =>
      have hstep : f + 1 + k = (f + k) + 1 := by omega
      cases hl : lookupExp v e with
      | none =>
        rw [unravelLoop_succ_none f acc hl] at hhead
        simp at hhead
      | some pred =>
        rw [unravelLoop_succ_some f acc hl] at hhead
        rw [hstep, unravelLoop_succ_some (f + k) acc hl, unravelLoop_succ_some f acc hl]
        exact ih pred (some v :: acc) hhead k

lemma UnravelSpec.unravel_eq {e : Explored} {v : Values} {p : List Values}
    (h : UnravelSpec e v p) : unravel_bfs v e = none :: p.map some := by
  unfold unravel_bfs
  have hfuel : e.length + 1 = (p.length + 1) + (e.length - p.length) := by
    have := h.2
    omega
  rw [hfuel, unravelLoop_fuel_mono (p.length + 1) (some v) [] (by rw [h.1]; rfl), h.1]

lemma UnravelSpec.append {e : Explored} {v : Values} {p : List Values}
    (ext : Explored) (h : UnravelSpec e v p) : UnravelSpec (e ++ ext) v p := by
  constructor
  · rw [unravelLoop_agree
      (fun w hw => lookupExp_append_left ext (lookupExp_isSome_iff.1 hw))
      (p.length + 1) (some v) [] (by rw [h.1]; rfl)]
    exact h.1
  · calc p.length ≤ e.length := h.2
      _ ≤ (e ++ ext).length := by simp

lemma UnravelSpec.extend {e : Explored} {f n : Values} {p : List Values}
    (h : UnravelSpec e f p) (hn : n ∉ keysOf e) :
    UnravelSpec (e ++ [(n, some f)]) n (p ++ [n]) := by
  have hlook : lookupExp n (e ++ [(n, some f)]) = some (some f) :=
    lookupExp_append_self (some f) hn
  constructor
  · have hlen : (p ++ [n]).length + 1 = (p.length + 1) + 1 := by simp
    rw [hlen, unravelLoop_succ_some (p.length + 1) [] hlook,
      unravelLoop_acc _ (p.length + 1) (some f) [some n],
      (UnravelSpec.append [(n, some f)] h).1]
    simp
  · have := h.2
    simp
    omega

lemma UnravelSpec_init (v₀ : Values) : UnravelSpec [(v₀, none)] v₀ [v₀] := by
  have hlook : lookupExp v₀ [(v₀, none)] = some none := by
    unfold lookupExp
    rw [List.find?_cons_of_pos _ (by simp)]
    rfl
  constructor
  · show unravelLoop [(v₀, none)] 2 (some v₀) [] = none :: [some v₀]
    rw [unravelLoop_succ_some 1 [] hlook, unravelLoop_none]
  · simp

/-! ### The expansion step of the BFS loop -/

lemma keysOf_append (e ext : Explored) : keysOf (e ++ ext) = keysOf e ++ keysOf ext :=
  List.map_append _ _ _

lemma expand_spec (pred : Values) :
    ∀ (ns : List Values) (e : Explored) (q : List Values),
      ∃ F : List Values,
        expand pred ns e q = (e ++ F.map (fun n => (n, some pred)), q ++ F) ∧
        F.Nodup ∧
        (∀ x ∈ F, x ∈ ns ∧ x ∉ keysOf e) ∧
        (∀ n ∈ ns, n ∈ keysOf e ∨ n ∈ F) := by
  intro ns
  induction ns with
  | nil =>
    intro e q
    exact ⟨[], by simp [expand], by simp, by simp, by simp⟩
  | cons n ns ih =>
    intro e q
    by_cases hmem : (lookupExp n e).isSome = true
    · obtain ⟨F, heq, hnd, hsub, hcov⟩ := ih e q
      have hkey : n ∈ keysOf e := lookupExp_isSome_iff.1 hmem
      refine ⟨F, ?_, hnd,
        fun x hx => ⟨List.mem_cons_of_mem _ (hsub x hx).1, (hsub x hx).2⟩, ?_⟩
      · rw [expand, if_pos hmem]
        exact heq
      · intro m hm
        rcases List.mem_cons.1 hm with rfl | hm
        · exact Or.inl hkey
        · exact hcov m hm
    · have hfresh : n ∉ keysOf e := fun h => hmem (lookupExp_isSome_iff.2 h)
      obtain ⟨F, heq, hnd, hsub, hcov⟩ := ih (e ++ [(n, some pred)]) (q ++ [n])
      refine ⟨n :: F, ?_, ?_, ?_, ?_⟩
      · rw [expand, if_neg hmem, heq, List.append_assoc, List.append_assoc]
        rfl
      · refine List.nodup_cons.2 ⟨?_, hnd⟩
        intro hnF
        have := (hsub n hnF).2
        apply this
        rw [keysOf_append]
        simp [keysOf]
      · intro x hx
        rcases List.mem_cons.1 hx with rfl | hx
        · exact ⟨List.mem_cons_self _ _, hfresh⟩
        · obtain ⟨hxns, hxkeys⟩ := hsub x hx
          refine ⟨List.mem_cons_of_mem _ hxns, fun hxe => hxkeys ?_⟩
          rw [keysOf_append]
          exact List.mem_append.2 (Or.inl hxe)
      · intro m hm
        rcases List.mem_cons.1 hm with rfl | hm
        · exact Or.inr (List.mem_cons_self _ _)
        · rcases hcov m hm with hkey | hF
          · rw [keysOf_append] at hkey
            rcases List.mem_append.1 hkey with hkey | hkey
            · exact Or.inl hkey
            · simp [keysOf] at hkey
              subst hkey
              exact Or.inr (List.mem_cons_self _ _)
          · exact Or.inr (List.mem_cons_of_mem _ hF)

/-! ### The space of valid configurations is finite -/

lemma card_validTuples : ∀ c : List Int, (validTuples c).card = stateSpaceBound c := by
  intro c
  induction c with
  | nil => rfl
  | cons b bs ih =>
    show ((Finset.range (b.toNat + 1)).biUnion
      (fun h => (validTuples bs).image (fun tl => ((h : Int) :: tl)))).card = _
    rw [Finset.card_biUnion]
    · have hcard : ∀ h ∈ Finset.range (b.toNat + 1),
          ((validTuples bs).image (fun tl => ((h : Int) :: tl))).card
            = stateSpaceBound bs := by
        intro h _
        rw [Finset.card_image_of_injective _ (fun a a' ha => by simpa using ha), ih]
      rw [Finset.sum_congr rfl hcard, Finset.sum_const, Finset.card_range]
      show (b.toNat + 1) * stateSpaceBound bs = stateSpaceBound (b :: bs)
      simp [stateSpaceBound]
    · intro x _ y _ hxy
      rw [Finset.disjoint_left]
      intro a hax hay
      rcases Finset.mem_image.1 hax with ⟨tx, _, htx⟩
      rcases Finset.mem_image.1 hay with ⟨ty, _, hty⟩
      rw [← htx] at hty
      have hxyint : (y : Int) = (x : Int) := List.head_eq_of_cons_eq hty
      exact hxy (by exact_mod_cast hxyint.symm)

lemma valid_nil_iff {v : Values} : Valid [] v ↔ v = [] := by
  unfold Valid
  constructor
  · intro ⟨hl, _⟩
    exact List.length_eq_zero.1 hl
  · rintro rfl
    exact ⟨rfl, fun i hi => by simp at hi⟩

lemma valid_cons_iff {b : Int} {bs : List Int} {x : Int} {xs : Values} :
    Valid (b :: bs) (x :: xs) ↔ (0 ≤ x ∧ x ≤ b) ∧ Valid bs xs := by
  unfold Valid
  constructor
  · intro ⟨hl, hbd⟩
    refine ⟨by simpa using hbd 0 (by simp), by simpa using hl, ?_⟩
    intro i hi
    simpa using hbd (i + 1) (by simpa using Nat.succ_lt_succ hi)
  · intro ⟨⟨hx0, hxb⟩, hl, hbd⟩
    refine ⟨by simpa using hl, ?_⟩
    intro i hi
    cases i with
    | zero => simpa using ⟨hx0, hxb⟩
    | succ i => simpa using hbd i (by simpa using Nat.lt_of_succ_lt_succ hi)

lemma mem_validTuples : ∀ {c : List Int} {v : Values}, Valid c v → v ∈ validTuples c := by
  intro c
  induction c with
  | nil =>
    intro v hv
    rw [valid_nil_iff.1 hv]
    show ([] : Values) ∈ ({[]} : Finset Values)
    simp
  | cons b bs ih =>
    intro v hv
    match v with
    | [] =>
      exfalso
      have := hv.1
      simp at this
    | x :: xs =>
      obtain ⟨⟨hx0, hxb⟩, hxs⟩ := valid_cons_iff.1 hv
      show x :: xs ∈ (Finset.range (b.toNat + 1)).biUnion
        (fun h => (validTuples bs).image (fun tl => ((h : Int) :: tl)))
      refine Finset.mem_biUnion.2 ⟨x.toNat, ?_, ?_⟩
      · refine Finset.mem_range.2 ?_
        omega
      · refine Finset.mem_image.2 ⟨xs, ih hxs, ?_⟩
        rw [Int.toNat_of_nonneg hx0]

lemma nodup_valid_length_le {c : List Int} {l : List Values}
    (hnd : l.Nodup) (hval : ∀ v ∈ l, Valid c v) :
    l.length ≤ stateSpaceBound c := by
  have hsub : l.toFinset ⊆ validTuples c :=
    fun v hv => mem_validTuples (hval v (List.mem_toFinset.1 hv))
  calc l.length = l.toFinset.card := (List.toFinset_card_of_nodup hnd).symm
    _ ≤ (validTuples c).card := Finset.card_le_card hsub
    _ = stateSpaceBound c := card_validTuples c

/-! ### Move-distances (specification-level, used to state BFS optimality) -/

lemma reachesIn_dist {c : List Int} {ar : Bool} {v₀ w : Values}
    (h : reachableW c ar v₀ w) : ReachesIn c ar v₀ (distW c ar v₀ w) w :=
  Nat.sInf_mem h

lemma distW_le {c : List Int} {ar : Bool} {v₀ w : Values} {n : Nat}
    (h : ReachesIn c ar v₀ n w) : distW c ar v₀ w ≤ n :=
  Nat.sInf_le h

lemma distW_self {c : List Int} {ar : Bool} {v₀ : Values} : distW c ar v₀ v₀ = 0 :=
  Nat.le_zero.1 (distW_le ReachesIn.refl)

lemma distW_step_le {c : List Int} {ar : Bool} {v₀ u w : Values}
    (hu : reachableW c ar v₀ u) (hs : stepTo c ar u w) :
    distW c ar v₀ w ≤ distW c ar v₀ u + 1 :=
  distW_le (ReachesIn.tail (reachesIn_dist hu) hs)

lemma distW_pred {c : List Int} {ar : Bool} {v₀ w : Values} {n : Nat}
    (hw : reachableW c ar v₀ w) (hd : distW c ar v₀ w = n + 1) :
    ∃ u, reachableW c ar v₀ u ∧ distW c ar v₀ u = n ∧ stepTo c ar u w := by
  have h1 := reachesIn_dist hw
  rw [hd] at h1
  cases h1 with
  | tail h hs =>
    rename_i u
    refine ⟨u, ⟨n, h⟩, ?_, hs⟩
    have hle : distW c ar v₀ u ≤ n := distW_le h
    by_contra hne
    have hlt : distW c ar v₀ u < n := lt_of_le_of_ne hle hne
    have : distW c ar v₀ w ≤ distW c ar v₀ u + 1 :=
      distW_le (ReachesIn.tail (reachesIn_dist ⟨n, h⟩) hs)
    omega

lemma distW_zero_eq {c : List Int} {ar : Bool} {v₀ w : Values}
    (hw : reachableW c ar v₀ w) (h : distW c ar v₀ w = 0) : w = v₀ := by
  have h1 := reachesIn_dist hw
  rw [h] at h1
  cases h1
  rfl

lemma reachesIn_valid {c : List Int} {ar : Bool} {v₀ w : Values} {n : Nat}
    (h0 : Valid c v₀) (h : ReachesIn c ar v₀ n w) : Valid c w := by
  induction h with
  | refl => exact h0
  | tail h hs ih => exact valid_step ih hs

lemma isGoalV_iff {t : Int} {v : Values} : isGoalV t v = true ↔ t ∈ v := by
  unfold isGoalV
  rw [List.any_eq_true]
  constructor
  · rintro ⟨x, hx, hdec⟩
    have : x = t := by simpa using hdec
    rwa [← this]
  · intro ht
    exact ⟨t, ht, by simp⟩

lemma reachesIn_iff_path {c : List Int} {ar : Bool} {v₀ w : Values} {n : Nat} :
    ReachesIn c ar v₀ n w ↔
      ∃ p : List Values, LegalPath c ar p ∧ p.head? = some v₀ ∧
        p.getLast? = some w ∧ p.length = n + 1 := by
  constructor
  · intro h
    induction h with
    | refl => exact ⟨[v₀], List.chain'_singleton _, rfl, rfl, rfl⟩
    | tail h hs ih =>
      rename_i m u x
      obtain ⟨p, hchain, hhead, hlast, hlen⟩ := ih
      have hne : p ≠ [] := by
        intro hp
        rw [hp] at hhead
        exact Option.noConfusion hhead
      refine ⟨p ++ [x], ?_, ?_, ?_, ?_⟩
      · show List.Chain' (stepTo c ar) (p ++ [x])
        rw [List.chain'_append]
        refine ⟨hchain, List.chain'_singleton _, ?_⟩
        intro a ha b hb
        rw [hlast] at ha
        cases ha
        have hbx : x = b := by simpa using hb
        rw [← hbx]
        exact hs
      · rcases p with _ | ⟨y, p'⟩
        · exact absurd rfl hne
        · simpa using hhead
      · rw [List.getLast?_concat]
      · simp [hlen]
  · intro h
    induction n generalizing w with
    | zero =>
      obtain ⟨p, hchain, hhead, hlast, hlen⟩ := h
      match p, hlen with
      | [x], _ =>
        have h1 : x = v₀ := by simpa using hhead
        have h2 : x = w := by simpa using hlast
        rw [← h2, h1]
        exact ReachesIn.refl
    | succ m ih =>
      obtain ⟨p, hchain, hhead, hlast, hlen⟩ := h
      rcases List.eq_nil_or_concat p with rfl | ⟨q, x, rfl⟩
      · simp at hlen
      · rw [List.concat_eq_append] at hchain hhead hlast hlen
        have hx : x = w := by
          rw [List.getLast?_concat] at hlast
          simpa using hlast
        subst hx
        have hqne : q ≠ [] := by
          intro h0
          rw [h0] at hlen
          simp at hlen
        obtain ⟨u, hu⟩ : ∃ u, q.getLast? = some u := by
          cases hq : q.getLast? with
          | none => exact absurd (List.getLast?_eq_none_iff.1 hq) hqne
          | some u => exact ⟨u, rfl⟩
        have hchain' : List.Chain' (stepTo c ar) (q ++ [x]) := hchain
        rw [List.chain'_append] at hchain'
        obtain ⟨hchainq, _, hlink⟩ := hchain'
        have hstep : stepTo c ar u x := hlink u (by simp [hu]) x rfl
        have hreach : ReachesIn c ar v₀ m u := by
          apply ih
          refine ⟨q, hchainq, ?_, hu, ?_⟩
          · rcases q with _ | ⟨y, q'⟩
            · exact absurd rfl hqne
            · simpa using hhead
          · have hql : q.length + 1 = m + 1 + 1 := by simpa using hlen
            omega
        exact ReachesIn.tail hreach hstep

/-! ### The BFS loop invariant -/

lemma keysOf_entries (v : Values) (F : List Values) :
    keysOf (F.map (fun n => (n, some v))) = F := by
  simp [keysOf, List.map_map, Function.comp_def]

lemma BFSInv.key_reachable {c : List Int} {t : Int} {ar : Bool} {v₀ : Values}
    {queue : List Values} {e : Explored} {d : Nat}
    (hinv : BFSInv c t ar v₀ queue e d) {v : Values} (hv : v ∈ keysOf e) :
    reachableW c ar v₀ v := by
  obtain ⟨p, _, hlegal, hhead, hlast, hlen⟩ := hinv.unravel v hv
  exact ⟨distW c ar v₀ v, reachesIn_iff_path.2 ⟨p, hlegal, hhead, hlast, hlen⟩⟩

lemma BFSInv.layer_closed {c : List Int} {t : Int} {ar : Bool} {v₀ : Values}
    {queue : List Values} {e : Explored} {d : Nat}
    (hinv : BFSInv c t ar v₀ queue e d)
    (hq : ∀ x ∈ queue, distW c ar v₀ x = d + 1) :
    ∀ w, reachableW c ar v₀ w → distW c ar v₀ w ≤ d + 1 → w ∈ keysOf e := by
  intro w hw hle
  by_cases hcase : distW c ar v₀ w ≤ d
  · exact hinv.complete w hw hcase
  · have heq : distW c ar v₀ w = d + 1 := by omega
    obtain ⟨u, hure, hud, hstep⟩ := distW_pred hw heq
    have hukeys : u ∈ keysOf e := hinv.complete u hure (le_of_eq hud)
    have hunq : u ∉ queue := by
      intro huq
      have := hq u huq
      omega
    exact (hinv.processed u hukeys hunq).2 w hstep

lemma BFSInv.front_min {c : List Int} {t : Int} {ar : Bool} {v₀ : Values}
    {v : Values} {rest : List Values} {e : Explored} {d : Nat}
    (hinv : BFSInv c t ar v₀ (v :: rest) e d) :
    ∀ w, reachableW c ar v₀ w → distW c ar v₀ w < distW c ar v₀ v →
      isGoalV t w = false := by
  obtain ⟨qa, qb, hsplit, hda, hdb⟩ := hinv.layers
  intro w hw hlt
  rcases qa with _ | ⟨a, qa'⟩
  · have hsplit' : v :: rest = qb := by simpa using hsplit
    have hdv : distW c ar v₀ v = d + 1 := by
      apply hdb
      rw [← hsplit']
      exact List.mem_cons_self _ _
    have hwd : distW c ar v₀ w ≤ d := by omega
    have hwkeys : w ∈ keysOf e := hinv.complete w hw hwd
    have hwnq : w ∉ v :: rest := by
      intro hwq
      have : distW c ar v₀ w = d + 1 := by
        apply hdb
        rw [← hsplit']
        exact hwq
      omega
    exact (hinv.processed w hwkeys hwnq).1
  · have hsplit' : v :: rest = a :: (qa' ++ qb) := by simpa using hsplit
    have hva : v = a := by
      injection hsplit' with h1 h2
    have hdv : distW c ar v₀ v = d := by
      rw [hva]
      exact hda a (List.mem_cons_self _ _)
    have hwd : distW c ar v₀ w ≤ d := by omega
    have hwkeys : w ∈ keysOf e := hinv.complete w hw hwd
    have hwnq : w ∉ v :: rest := by
      intro hwq
      rw [hsplit] at hwq
      rcases List.mem_append.1 hwq with hx | hx
      · have := hda w hx
        omega
      · have := hdb w hx
        omega
    exact (hinv.processed w hwkeys hwnq).1

lemma BFSInv.fresh_dist {c : List Int} {t : Int} {ar : Bool} {v₀ : Values}
    {v : Values} {rest : List Values} {e : Explored} {d : Nat}
    (hinv : BFSInv c t ar v₀ (v :: rest) e d) {n : Values}
    (hn : stepTo c ar v n) (hfresh : n ∉ keysOf e) :
    distW c ar v₀ n = distW c ar v₀ v + 1 := by
  have hvkeys : v ∈ keysOf e := hinv.queue_sub v (List.mem_cons_self _ _)
  have hvre : reachableW c ar v₀ v := hinv.key_reachable hvkeys
  have hle : distW c ar v₀ n ≤ distW c ar v₀ v + 1 := distW_step_le hvre hn
  obtain ⟨qa, qb, hsplit, hda, hdb⟩ := hinv.layers
  rcases qa with _ | ⟨a, qa'⟩
  · have hsplit' : v :: rest = qb := by simpa using hsplit
    have hvq : v ∈ qb := by
      rw [← hsplit']
      exact List.mem_cons_self _ _
    have hdv : distW c ar v₀ v = d + 1 := hdb v hvq
    have hnotle : ¬ distW c ar v₀ n ≤ d + 1 := by
      intro hcon
      apply hfresh
      refine hinv.layer_closed ?_ n ⟨distW c ar v₀ v + 1,
        ReachesIn.tail (reachesIn_dist hvre) hn⟩ hcon
      intro x hx
      apply hdb
      rw [← hsplit']
      exact hx
    omega
  · have hsplit' : v :: rest = a :: (qa' ++ qb) := by simpa using hsplit
    have hva : v = a := by
      injection hsplit' with h1 h2
    have hdv : distW c ar v₀ v = d := by
      rw [hva]
      exact hda a (List.mem_cons_self _ _)
    have hnotle : ¬ distW c ar v₀ n ≤ d := by
      intro hcon
      exact hfresh (hinv.complete n ⟨distW c ar v₀ v + 1,
        ReachesIn.tail (reachesIn_dist hvre) hn⟩ hcon)
    omega

lemma legalPath_concat {c : List Int} {ar : Bool} {p : List Values} {u x : Values}
    (hp : LegalPath c ar p) (hlast : p.getLast? = some u) (hs : stepTo c ar u x) :
    LegalPath c ar (p ++ [x]) := by
  show List.Chain' (stepTo c ar) (p ++ [x])
  rw [List.chain'_append]
  refine ⟨hp, List.chain'_singleton _, ?_⟩
  intro a ha b hb
  rw [hlast] at ha
  cases ha
  have hbx : x = b := by simpa using hb
  rw [← hbx]
  exact hs

lemma head?_append_single {α : Type _} {p : List α} (x : α) (h : p ≠ []) :
    (p ++ [x]).head? = p.head? := by
  rcases p with _ | ⟨y, p'⟩
  · exact absurd rfl h
  · rfl

lemma BFSInv.expand_step {c : List Int} {t : Int} {ar : Bool} {v₀ : Values}
    {v : Values} {rest : List Values} {e : Explored} {d : Nat}
    (hinv : BFSInv c t ar v₀ (v :: rest) e d)
    (hg : isGoalV t v = false)
    {F : List Values}
    (hFnd : F.Nodup)
    (hFsub : ∀ x ∈ F, x ∈ neighborValues c ar v ∧ x ∉ keysOf e)
    (hFcov : ∀ n ∈ neighborValues c ar v, n ∈ keysOf e ∨ n ∈ F) :
    ∃ d', BFSInv c t ar v₀ (rest ++ F) (e ++ F.map (fun n => (n, some v))) d' := by
  have hvkeys : v ∈ keysOf e := hinv.queue_sub v (List.mem_cons_self _ _)
  have hvval : Valid c v := hinv.valid v hvkeys
  have hkeys' : keysOf (e ++ F.map (fun n => (n, some v))) = keysOf e ++ F := by
    rw [keysOf_append, keysOf_entries]
  have hfreshd : ∀ n ∈ F, distW c ar v₀ n = distW c ar v₀ v + 1 :=
    fun n hn => hinv.fresh_dist (hFsub n hn).1 (hFsub n hn).2
  have hsubkeys : ∀ x ∈ keysOf e, x ∈ keysOf (e ++ F.map (fun n => (n, some v))) := by
    intro x hx
    rw [hkeys']
    exact List.mem_append.2 (Or.inl hx)
  have hFkeys : ∀ x ∈ F, x ∈ keysOf (e ++ F.map (fun n => (n, some v))) := by
    intro x hx
    rw [hkeys']
    exact List.mem_append.2 (Or.inr hx)
  obtain ⟨qa, qb, hsplit, hda, hdb⟩ := hinv.layers
  have hlayers : ∃ d', (∃ qa' qb', rest ++ F = qa' ++ qb' ∧
      (∀ x ∈ qa', distW c ar v₀ x = d') ∧
      (∀ x ∈ qb', distW c ar v₀ x = d' + 1)) ∧
      (∀ w, reachableW c ar v₀ w → distW c ar v₀ w ≤ d' → w ∈ keysOf e) := by
    rcases qa with _ | ⟨a, qa'⟩
    · have hsplit' : v :: rest = qb := by simpa using hsplit
      have hdv : distW c ar v₀ v = d + 1 := by
        apply hdb
        rw [← hsplit']
        exact List.mem_cons_self _ _
      refine ⟨d + 1, ⟨rest, F, rfl, ?_, ?_⟩, ?_⟩
      · intro x hx
        apply hdb
        rw [← hsplit']
        exact List.mem_cons_of_mem _ hx
      · intro x hx
        rw [hfreshd x hx, hdv]
      · apply hinv.layer_closed
        intro x hx
        apply hdb
        rw [← hsplit']
        exact hx
    · have hsplit' : v :: rest = a :: (qa' ++ qb) := by simpa using hsplit
      have hva : v = a := by injection hsplit' with h1 h2
      have hrest : rest = qa' ++ qb := by injection hsplit' with h1 h2
      have hdv : distW c ar v₀ v = d := by
        rw [hva]
        exact hda a (List.mem_cons_self _ _)
      refine ⟨d, ⟨qa', qb ++ F, by rw [hrest, List.append_assoc], ?_, ?_⟩,
        hinv.complete⟩
      · intro x hx
        exact hda x (List.mem_cons_of_mem _ hx)
      · intro x hx
        rcases List.mem_append.1 hx with hx | hx
        · exact hdb x hx
        · rw [hfreshd x hx, hdv]
  obtain ⟨d', hlay, hcomp'⟩ := hlayers
  refine ⟨d', ?_, ?_, ?_, ?_, ?_, hlay, ?_, ?_⟩
  · obtain ⟨tl, htl⟩ := hinv.head_init
    exact ⟨tl ++ F.map (fun n => (n, some v)), by rw [htl]; rfl⟩
  · rw [hkeys', List.nodup_append]
    exact ⟨hinv.nodup, hFnd, fun x hx hxF => (hFsub x hxF).2 hx⟩
  · intro x hx
    rw [hkeys'] at hx
    rcases List.mem_append.1 hx with hxold | hxF
    · exact hinv.valid x hxold
    · exact valid_step hvval (hFsub x hxF).1
  · intro x hx
    rw [hkeys'] at hx
    rcases List.mem_append.1 hx with hxold | hxF
    · obtain ⟨p, hspec, hleg, hh, hl, hlen⟩ := hinv.unravel x hxold
      exact ⟨p, hspec.append _, hleg, hh, hl, hlen⟩
    · obtain ⟨F₁, F₂, hFeq⟩ := List.append_of_mem hxF
      obtain ⟨p, hspec, hleg, hh, hl, hlen⟩ := hinv.unravel v hvkeys
      have hpne : p ≠ [] := by
        intro h0
        rw [h0] at hh
        exact Option.noConfusion hh
      have hxnotF₁ : x ∉ F₁ := by
        have hnd := hFnd
        rw [hFeq, List.nodup_append] at hnd
        exact fun hmem => hnd.2.2 hmem (List.mem_cons_self _ _)
      have hfresh₁ : x ∉ keysOf (e ++ F₁.map (fun n => (n, some v))) := by
        rw [keysOf_append, keysOf_entries]
        intro hmem
        rcases List.mem_append.1 hmem with h | h
        · exact (hFsub x hxF).2 h
        · exact hxnotF₁ h
      have hspec₁ : UnravelSpec (e ++ F₁.map (fun n => (n, some v))) v p :=
        hspec.append _
      have hspec₂ : UnravelSpec ((e ++ F₁.map (fun n => (n, some v))) ++ [(x, some v)])
          x (p ++ [x]) := hspec₁.extend hfresh₁
      have hspec₃ : UnravelSpec (((e ++ F₁.map (fun n => (n, some v))) ++ [(x, some v)])
          ++ F₂.map (fun n => (n, some v))) x (p ++ [x]) := hspec₂.append _
      have heq : ((e ++ F₁.map (fun n => (n, some v))) ++ [(x, some v)])
          ++ F₂.map (fun n => (n, some v)) = e ++ F.map (fun n => (n, some v)) := by
        rw [hFeq, List.map_append]
        simp [List.append_assoc]
      rw [heq] at hspec₃
      refine ⟨p ++ [x], hspec₃, legalPath_concat hleg hl (hFsub x hxF).1, ?_, ?_, ?_⟩
      · rw [head?_append_single x hpne]
        exact hh
      · rw [List.getLast?_concat]
      · rw [List.length_append, hlen, hfreshd x hxF]
        simp
  · intro x hx
    rcases List.mem_append.1 hx with hx | hx
    · exact hsubkeys _ (hinv.queue_sub x (List.mem_cons_of_mem _ hx))
    · exact hFkeys _ hx
  · intro w hw hle
    exact hsubkeys _ (hcomp' w hw hle)
  · intro x hx hnq
    rw [hkeys'] at hx
    rcases List.mem_append.1 hx with hxold | hxF
    · by_cases hxv : x = v
      · subst hxv
        refine ⟨hg, ?_⟩
        intro n hn
        rcases hFcov n hn with h | h
        · exact hsubkeys _ h
        · exact hFkeys _ h
      · have hxnold : x ∉ v :: rest := by
          intro hmem
          rcases List.mem_cons.1 hmem with h | h
          · exact hxv h
          · exact hnq (List.mem_append.2 (Or.inl h))
        obtain ⟨h1, h2⟩ := hinv.processed x hxold hxnold
        exact ⟨h1, fun n hn => hsubkeys _ (h2 n hn)⟩
    · exact absurd (List.mem_append.2 (Or.inr hxF)) hnq

lemma BFSInv_init {c : List Int} {t : Int} {ar : Bool} (v₀ : Values) (hv : Valid c v₀) :
    BFSInv c t ar v₀ [v₀] [(v₀, none)] 0 := by
  refine ⟨⟨[], rfl⟩, by simp [keysOf], ?_, ?_, ?_, ⟨[v₀], [], by simp, ?_, by simp⟩, ?_, ?_⟩
  · intro v hv'
    have hveq : v = v₀ := by simpa [keysOf] using hv'
    subst hveq
    exact hv
  · intro v hv'
    have hveq : v = v₀ := by simpa [keysOf] using hv'
    subst hveq
    exact ⟨[v], UnravelSpec_init v, List.chain'_singleton _, rfl, rfl, by simp [distW_self]⟩
  · intro v hv'
    have hveq : v = v₀ := by simpa using hv'
    subst hveq
    simp [keysOf]
  · intro x hx
    have hxeq : x = v₀ := by simpa using hx
    subst hxeq
    exact distW_self
  · intro w hw hle
    have h0 : distW c ar v₀ w = 0 := Nat.le_zero.1 hle
    rw [distW_zero_eq hw h0]
    simp [keysOf]
  · intro v hv' hnq
    exfalso
    apply hnq
    have hveq : v = v₀ := by simpa [keysOf] using hv'
    subst hveq
    simp

lemma bfsLoop_nil (c : List Int) (t : Int) (ar : Bool) (f : Nat) (e : Explored) :
    bfsLoop c t ar (f + 1) [] e = some [] := rfl

lemma bfsLoop_cons (c : List Int) (t : Int) (ar : Bool) (f : Nat) (v : Values)
    (rest : List Values) (e : Explored) :
    bfsLoop c t ar (f + 1) (v :: rest) e =
      if isGoalV t v then some (unravel_bfs v e)
      else bfsLoop c t ar f (expand v (neighborValues c ar v) e rest).2
             (expand v (neighborValues c ar v) e rest).1 := rfl

/-- Correctness of the BFS loop at any point satisfying the invariant:
given enough fuel, the loop terminates and either reports no solution
(correctly: no reachable state is a goal), or returns the sentinel
followed by a legal move sequence from the initial state to a goal of
minimal distance among all reachable goals. -/
lemma bfsLoop_spec {c : List Int} {t : Int} {ar : Bool} {v₀ : Values} :
    ∀ (fuel : Nat) (queue : List Values) (e : Explored) (d : Nat),
      BFSInv c t ar v₀ queue e d →
      stateSpaceBound c + queue.length + 1 ≤ fuel + e.length →
      ∃ r, bfsLoop c t ar fuel queue e = some r ∧
        ((r = [] ∧ ∀ w, reachableW c ar v₀ w → isGoalV t w = false) ∨
         (∃ p g, r = none :: p.map some ∧ LegalPath c ar p ∧ p.head? = some v₀ ∧
           p.getLast? = some g ∧ isGoalV t g = true ∧
           p.length = distW c ar v₀ g + 1 ∧
           ∀ w, reachableW c ar v₀ w → isGoalV t w = true →
             distW c ar v₀ g ≤ distW c ar v₀ w)) := by
  intro fuel
  induction fuel with
  | zero =>
    intro queue e d hinv hfuel
    exfalso
    have h1 : (keysOf e).length ≤ stateSpaceBound c :=
      nodup_valid_length_le hinv.nodup hinv.valid
    have h2 : (keysOf e).length = e.length := by simp [keysOf]
    omega
  | succ f ih =>
    intro queue e d hinv hfuel
    match queue with
    | [] =>
      refine ⟨[], bfsLoop_nil c t ar f e, Or.inl ⟨rfl, ?_⟩⟩
      intro w hw
      have hclosed : ∀ x ∈ keysOf e, isGoalV t x = false ∧
          ∀ n ∈ neighborValues c ar x, n ∈ keysOf e :=
        fun x hx => hinv.processed x hx (by simp)
      have hkeys : ∀ {n : Nat} {w' : Values}, ReachesIn c ar v₀ n w' → w' ∈ keysOf e := by
        intro n w' hr
        induction hr with
        | refl =>
          obtain ⟨tl, htl⟩ := hinv.head_init
          rw [htl]
          simp [keysOf]
        | tail h hs ihh => exact (hclosed _ ihh).2 _ hs
      obtain ⟨n, hn⟩ := hw
      exact (hclosed w (hkeys hn)).1
    | v :: rest =>
      by_cases hg : isGoalV t v = true
      · obtain ⟨p, hspec, hleg, hh, hl, hlen⟩ :=
          hinv.unravel v (hinv.queue_sub v (List.mem_cons_self _ _))
        refine ⟨none :: p.map some, ?_, Or.inr ⟨p, v, rfl, hleg, hh, hl, hg, hlen, ?_⟩⟩
        · rw [bfsLoop_cons, if_pos hg, hspec.unravel_eq]
        · intro w hw hgw
          by_contra hcon
          have hlt : distW c ar v₀ w < distW c ar v₀ v := by omega
          rw [hinv.front_min w hw hlt] at hgw
          simp at hgw
      · have hgf : isGoalV t v = false := by
          cases h : isGoalV t v
          · rfl
          · exact absurd h hg
        obtain ⟨F, hexp, hFnd, hFsub, hFcov⟩ :=
          expand_spec v (neighborValues c ar v) e rest
        obtain ⟨d', hinv'⟩ := hinv.expand_step hgf hFnd hFsub hFcov
        have hrun : bfsLoop c t ar (f + 1) (v :: rest) e
            = bfsLoop c t ar f (rest ++ F) (e ++ F.map (fun n => (n, some v))) := by
          rw [bfsLoop_cons, if_neg hg, hexp]
        have hfuel' : stateSpaceBound c + (rest ++ F).length + 1
            ≤ f + (e ++ F.map (fun n => (n, some v))).length := by
          simp only [List.length_append, List.length_map]
          simp only [List.length_cons] at hfuel
          omega
        obtain ⟨r, hr, hpost⟩ :=
          ih (rest ++ F) (e ++ F.map (fun n => (n, some v))) d' hinv' hfuel'
        exact ⟨r, by rw [hrun]; exact hr, hpost⟩

/-- Top-level consequence of `bfsLoop_spec` for `breadth_first_search`
on a valid initial state. -/
lemma bfs_main (s : State) (hv : Valid s.constraints s.values) :
    ∃ r, bfsLoop s.constraints s.target s.allow_refills
        (stateSpaceBound s.constraints + 1) [s.values] [(s.values, none)] = some r ∧
      breadth_first_search s = r ∧
      ((r = [] ∧ ∀ w, reachableW s.constraints s.allow_refills s.values w →
          isGoalV s.target w = false) ∨
       (∃ p g, r = none :: p.map some ∧
         LegalPath s.constraints s.allow_refills p ∧ p.head? = some s.values ∧
         p.getLast? = some g ∧ isGoalV s.target g = true ∧
         p.length = distW s.constraints s.allow_refills s.values g + 1 ∧
         ∀ w, reachableW s.constraints s.allow_refills s.values w →
           isGoalV s.target w = true →
           distW s.constraints s.allow_refills s.values g
             ≤ distW s.constraints s.allow_refills s.values w)) := by
  obtain ⟨r, hr, hpost⟩ := bfsLoop_spec (stateSpaceBound s.constraints + 1) [s.values]
    [(s.values, none)] 0 (BFSInv_init s.values hv) (by simp)
  refine ⟨r, hr, ?_, hpost⟩
  unfold breadth_first_search
  rw [hr]
  rfl

/-- C8: `breadth_first_search` terminates on every valid initial state:
the loop, run with fuel `stateSpaceBound + 1` (one more than the size
`∏ (capacity_i + 1)` of the space of valid configurations, which bounds
the number of distinct values-tuples ever entered into `explored`, each
being enqueued at most once), completes and returns the result of
`breadth_first_search`. -/
theorem bfs_terminates (s : State) (hv : Valid s.constraints s.values) :
    ∃ r, bfsLoop s.constraints s.target s.allow_refills
        (stateSpaceBound s.constraints + 1) [s.values] [(s.values, none)] = some r ∧
      breadth_first_search s = r := by
  obtain ⟨r, hr, hbfs, _⟩ := bfs_main s hv
  exact ⟨r, hr, hbfs⟩

/-- Witness for C8 at the initial state `(0, 0)` with capacities `(5, 3)`. -/
theorem bfs_terminates_witness :
    Valid [5, 3] [0, 0] ∧
      ∃ r, bfsLoop [5, 3] 4 true (stateSpaceBound [5, 3] + 1)
          [[0, 0]] [([0, 0], none)] = some r ∧
        breadth_first_search (State.mk [0, 0] [5, 3] 4 true) = r :=
  ⟨by decide, bfs_terminates (State.mk [0, 0] [5, 3] 4 true) (by decide)⟩

/-- C1: for every valid, solvable initial state (some legal move
sequence reaches a goal state), `breadth_first_search` returns the
sentinel followed by a legal move sequence from the initial state to a
goal state, and no legal move sequence from the initial state to any
goal state is shorter than the returned one. -/
theorem bfs_returns_shortest_path (s : State)
    (hval : Valid s.constraints s.values)
    (hsolv : ∃ q g, LegalPath s.constraints s.allow_refills q ∧
      q.head? = some s.values ∧ q.getLast? = some g ∧ isGoalV s.target g = true) :
    ∃ p g, breadth_first_search s = none :: p.map some ∧
      LegalPath s.constraints s.allow_refills p ∧
      p.head? = some s.values ∧ p.getLast? = some g ∧ isGoalV s.target g = true ∧
      ∀ q g', LegalPath s.constraints s.allow_refills q → q.head? = some s.values →
        q.getLast? = some g' → isGoalV s.target g' = true → p.length ≤ q.length := by
  obtain ⟨r, hr, hbfs, hpost⟩ := bfs_main s hval
  rcases hpost with ⟨hempty, hnogoal⟩ | ⟨p, g, hrp, hleg, hh, hl, hgg, hlen, hmin⟩
  · exfalso
    obtain ⟨q, g, hlq, hhq, hlq', hgq⟩ := hsolv
    have hqne : q ≠ [] := by
      intro h0
      rw [h0] at hhq
      exact Option.noConfusion hhq
    have hqpos : 1 ≤ q.length := List.length_pos.2 hqne
    have hreach : ReachesIn s.constraints s.allow_refills s.values (q.length - 1) g :=
      reachesIn_iff_path.2 ⟨q, hlq, hhq, hlq', by omega⟩
    rw [hnogoal g ⟨q.length - 1, hreach⟩] at hgq
    simp at hgq
  · refine ⟨p, g, by rw [hbfs, hrp], hleg, hh, hl, hgg, ?_⟩
    intro q g' hlq hhq hlq' hgq
    have hqne : q ≠ [] := by
      intro h0
      rw [h0] at hhq
      exact Option.noConfusion hhq
    have hqpos : 1 ≤ q.length := List.length_pos.2 hqne
    have hreach : ReachesIn s.constraints s.allow_refills s.values (q.length - 1) g' :=
      reachesIn_iff_path.2 ⟨q, hlq, hhq, hlq', by omega⟩
    have hdist : distW s.constraints s.allow_refills s.values g' ≤ q.length - 1 :=
      distW_le hreach
    have hmin' := hmin g' ⟨q.length - 1, hreach⟩ hgq
    omega

/-- Witness for C1 at the canonical solvable instance `(0, 0)` with
capacities `(5, 3)` and target `4`. -/
theorem bfs_returns_shortest_path_witness :
    Valid [5, 3] [0, 0] ∧
      (∃ q g, LegalPath [5, 3] true q ∧ q.head? = some [0, 0] ∧
        q.getLast? = some g ∧ isGoalV 4 g = true) ∧
      ∃ p g, breadth_first_search (State.mk [0, 0] [5, 3] 4 true) = none :: p.map some ∧
        LegalPath [5, 3] true p ∧
        p.head? = some [0, 0] ∧ p.getLast? = some g ∧ isGoalV 4 g = true ∧
        ∀ q g', LegalPath [5, 3] true q → q.head? = some [0, 0] →
          q.getLast? = some g' → isGoalV 4 g' = true → p.length ≤ q.length :=
  ⟨by decide,
    ⟨[[0, 0], [5, 0], [2, 3], [2, 0], [0, 2], [5, 2], [4, 3]], [4, 3],
      by decide, by decide, by decide, by decide⟩,
    bfs_returns_shortest_path (State.mk [0, 0] [5, 3] 4 true) (by decide)
      ⟨[[0, 0], [5, 0], [2, 3], [2, 0], [0, 2], [5, 2], [4, 3]], [4, 3],
        by decide, by decide, by decide, by decide⟩⟩

/-- C6: for every valid initial state from which no goal state is
reachable by legal moves, `breadth_first_search` terminates with the
empty list — unsolvability is signalled by the empty result (the
function is total; no error is raised). -/
theorem bfs_unsolvable_empty (s : State)
    (hval : Valid s.constraints s.values)
    (hunsolv : ¬ ∃ q g, LegalPath s.constraints s.allow_refills q ∧
      q.head? = some s.values ∧ q.getLast? = some g ∧ isGoalV s.target g = true) :
    breadth_first_search s = [] := by
  obtain ⟨r, hr, hbfs, hpost⟩ := bfs_main s hval
  rcases hpost with ⟨hempty, _⟩ | ⟨p, g, hrp, hleg, hh, hl, hgg, _, _⟩
  · rw [hbfs, hempty]
  · exact absurd ⟨p, g, hleg, hh, hl, hgg⟩ hunsolv

/-- No legal move sequence from `(0, 0)` with capacities `(2, 2)` ever
reaches a bucket holding 3: every reachable configuration satisfies the
capacity invariant, so no bucket can exceed 2. -/
lemma unsolvable_2_2_target_3 :
    ¬ ∃ q g, LegalPath [2, 2] true q ∧ q.head? = some [0, 0] ∧
      q.getLast? = some g ∧ isGoalV 3 g = true := by
  rintro ⟨q, g, hleg, hh, hl, hg⟩
  have hqne : q ≠ [] := by
    intro h0
    rw [h0] at hh
    exact Option.noConfusion hh
  have hqpos : 1 ≤ q.length := List.length_pos.2 hqne
  have hreach : ReachesIn [2, 2] true [0, 0] (q.length - 1) g :=
    reachesIn_iff_path.2 ⟨q, hleg, hh, hl, by omega⟩
  have hvalid : Valid [2, 2] g := reachesIn_valid (by decide) hreach
  have h3 : (3 : Int) ∈ g := isGoalV_iff.1 hg
  obtain ⟨i, hi, hgi⟩ := List.mem_iff_getElem.1 h3
  have hgd : g.getD i 0 = 3 := by
    rw [List.getD_eq_getElem?_getD, List.getElem?_eq_getElem hi, hgi]
    rfl
  have hlen2 : g.length = 2 := hvalid.1
  have hbd := (hvalid.2 i hi).2
  have hi2 : i < 2 := by omega
  interval_cases i <;> simp_all

/-- Witness for C6 at the unsolvable instance `(0, 0)` with capacities
`(2, 2)` and target `3`. -/
theorem bfs_unsolvable_empty_witness :
    Valid [2, 2] [0, 0] ∧
      (¬ ∃ q g, LegalPath [2, 2] true q ∧ q.head? = some [0, 0] ∧
        q.getLast? = some g ∧ isGoalV 3 g = true) ∧
      breadth_first_search (State.mk [0, 0] [2, 2] 3 true) = [] :=
  ⟨by decide, unsolvable_2_2_target_3,
    bfs_unsolvable_empty (State.mk [0, 0] [2, 2] 3 true) (by decide)
      unsolvable_2_2_target_3⟩

/-- C10: for every valid, solvable initial state the non-empty list
returned by `breadth_first_search` begins with the empty-tuple sentinel
(the predecessor recorded for the initial state, modelled `none`),
followed by the states of a legal move sequence from the initial state
to a goal state; hence its length — and therefore `puzzle_difficulty` —
is one more than the number of states on the reconstructed path. -/
theorem bfs_sentinel_difficulty (s : State)
    (hval : Valid s.constraints s.values)
    (hsolv : ∃ q g, LegalPath s.constraints s.allow_refills q ∧
      q.head? = some s.values ∧ q.getLast? = some g ∧ isGoalV s.target g = true) :
    ∃ p g, breadth_first_search s = none :: p.map some ∧
      LegalPath s.constraints s.allow_refills p ∧
      p.head? = some s.values ∧ p.getLast? = some g ∧ isGoalV s.target g = true ∧
      puzzle_difficulty s = 1 + p.length := by
  obtain ⟨r, hr, hbfs, hpost⟩ := bfs_main s hval
  rcases hpost with ⟨hempty, hnogoal⟩ | ⟨p, g, hrp, hleg, hh, hl, hgg, hlen, hmin⟩
  · exfalso
    obtain ⟨q, g, hlq, hhq, hlq', hgq⟩ := hsolv
    have hqne : q ≠ [] := by
      intro h0
      rw [h0] at hhq
      exact Option.noConfusion hhq
    have hqpos : 1 ≤ q.length := List.length_pos.2 hqne
    have hreach : ReachesIn s.constraints s.allow_refills s.values (q.length - 1) g :=
      reachesIn_iff_path.2 ⟨q, hlq, hhq, hlq', by omega⟩
    rw [hnogoal g ⟨q.length - 1, hreach⟩] at hgq
    simp at hgq
  · refine ⟨p, g, by rw [hbfs, hrp], hleg, hh, hl, hgg, ?_⟩
    unfold puzzle_difficulty
    rw [hbfs, hrp]
    simp
    omega

/-- Witness for C10 at the solvable instance `(0, 0)` with capacities
`(5, 3)` and target `4`. -/
theorem bfs_sentinel_difficulty_witness :
    Valid [5, 3] [0, 0] ∧
      (∃ q g, LegalPath [5, 3] true q ∧ q.head? = some [0, 0] ∧
        q.getLast? = some g ∧ isGoalV 4 g = true) ∧
      ∃ p g, breadth_first_search (State.mk [0, 0] [5, 3] 4 true) = none :: p.map some ∧
        LegalPath [5, 3] true p ∧
        p.head? = some [0, 0] ∧ p.getLast? = some g ∧ isGoalV 4 g = true ∧
        puzzle_difficulty (State.mk [0, 0] [5, 3] 4 true) = 1 + p.length :=
  ⟨by decide,
    ⟨[[0, 0], [5, 0], [2, 3], [2, 0], [0, 2], [5, 2], [4, 3]], [4, 3],
      by decide, by decide, by decide, by decide⟩,
    bfs_sentinel_difficulty (State.mk [0, 0] [5, 3] 4 true) (by decide)
      ⟨[[0, 0], [5, 0], [2, 3], [2, 0], [0, 2], [5, 2], [4, 3]], [4, 3],
        by decide, by decide, by decide, by decide⟩⟩
